import Mathlib

set_option maxRecDepth 100000

/-!
Verification of the strato-db event-sourcing core against its
natural-language specification.

The development shallowly embeds:
* the SQL templating helper `sql` and identifier quoting `quoteSqlId`
  (source: `unnamed/part_001`, lines 28-76);
* the busy-retry loops of `__withTransaction` and `_call`
  (source: `unnamed/part_001`, lines 13, 337-358, 516-530);
* the in-process transaction serialisation obtained by chaining
  `transactionP.then(nextTransaction, nextTransaction)`
  (source: `unnamed/part_001`, lines 495-514), as a small-step trace model;
* the event dispatch engine (preprocess → reduce → apply → derive with
  depth-first sub-event recursion).  The engine implementation itself is not
  part of the provided sources (only its tests are), so those definitions are
  modelled from the specification, as marked in their doc comments.
-/

namespace StratoDB

/-! ### JS values, as far as the SQL templating helper observes them -/

/-- A JavaScript value as consumed by the `sql` template helper: the helper
only ever coerces values to strings (`ID`/`LIT`), serialises them (`JSON`),
or passes them through to the bound-variable list. -/
inductive JsVal where
  | vstr (s : String)
  | vnum (n : Int)
  | vbool (b : Bool)
deriving DecidableEq, Repr

/-- JavaScript string coercion (`val.toString()` / `out += val`) for the
values `JsVal` models. -/
def jsToString : JsVal → String
  | .vstr s => s
  | .vnum n => toString n
  | .vbool b => if b then "true" else "false"

/-- Doubling of `"` characters, the escape performed by `quoteSqlId`
(source: ``s.toString().replace(/"/g, '""')``, part_001 line 28). -/
def escDoubleQuotes : List Char → List Char
  | [] => []
  | c :: rest =>
    if c = '"' then '"' :: '"' :: escDoubleQuotes rest
    else c :: escDoubleQuotes rest

/-- `quoteSqlId` from part_001 line 28: wrap the string coercion of the value
in double quotes, doubling any embedded double quote. -/
def quoteSqlId (v : JsVal) : String :=
  "\"" ++ String.mk (escDoubleQuotes (jsToString v).toList) ++ "\""

/-- The three interpolation modifiers recognised by `sql`, plus the default
(plain parameterised value). -/
inductive SqlMod where
  | mID | mJSON | mLIT | mNone
deriving DecidableEq, Repr

/-- A JS word character, for the `\b` boundary in `/^(ID|JSON|LIT)\b/`. -/
def isWordChar (c : Char) : Bool :=
  c.isAlpha || c.isDigit || c = '_'

/-- Try to strip modifier keyword `m` from the front of `str`, requiring a
word boundary after it, returning the remaining chunk on success. -/
def tryMod (m str : String) : Option String :=
  let ms := m.toList
  let cs := str.toList
  if ms.isPrefixOf cs then
    match cs.drop ms.length with
    | [] => some (String.mk [])
    | c :: rest => if isWordChar c then none else some (String.mk (c :: rest))
  else none

/-- Parse the leading modifier of a template chunk, mirroring the regex
`/^(ID|JSON|LIT)\b/` of part_001 line 60 (alternatives tried left to right). -/
def parseMod (str : String) : SqlMod × String :=
  match tryMod "ID" str with
  | some rest => (.mID, rest)
  | none =>
    match tryMod "JSON" str with
    | some rest => (.mJSON, rest)
    | none =>
      match tryMod "LIT" str with
      | some rest => (.mLIT, rest)
      | none => (.mNone, str)

/-- One iteration of the `sql` loop body (part_001 lines 56-73): the
accumulator holds the SQL text built so far and the bound-variable list;
`jsonStringify` stands for the JS builtin `JSON.stringify`. -/
def sqlStep (jsonStringify : JsVal → String)
    (acc : String × List JsVal) (part : JsVal × String) : String × List JsVal :=
  let (mod, str) := parseMod part.2
  match mod with
  | .mID => (acc.1 ++ quoteSqlId part.1 ++ str, acc.2)
  | .mLIT => (acc.1 ++ jsToString part.1 ++ str, acc.2)
  | .mJSON => (acc.1 ++ "?" ++ str, acc.2 ++ [JsVal.vstr (jsonStringify part.1)])
  | .mNone => (acc.1 ++ "?" ++ str, acc.2 ++ [part.1])

/-- The `sql` template helper (part_001 lines 52-75).  A tagged template call
always supplies one more string chunk than interpolated values, so the input
is the head chunk plus a list of (value, following chunk) pairs; the result
is the SQL text and the bound-variable list. -/
def sql (jsonStringify : JsVal → String)
    (head : String) (parts : List (JsVal × String)) : String × List JsVal :=
  parts.foldl (sqlStep jsonStringify) (head, [])

/-! Spec-side restatement of the templating contract, written independently
of the loop above: each interpolation contributes a fragment of SQL text and
at most one bound variable, determined only by its own modifier and value. -/

/-- Per-character escape used in the spec-side description of identifier
quoting: a double quote becomes two double quotes. -/
def specEscChar (c : Char) : List Char :=
  if c = '"' then ['"', '"'] else [c]

/-- Spec-side SQL fragment contributed by a single interpolation.  Note that
the fragment does not depend on the serialisation function: parameterised
values (plain and `JSON`) always show up as a `?` placeholder. -/
def specChunkOut (part : JsVal × String) : String :=
  match (parseMod part.2).1 with
  | .mID =>
    String.mk ('"' :: ((jsToString part.1).toList.flatMap specEscChar ++ ['"']))
      ++ (parseMod part.2).2
  | .mLIT => jsToString part.1 ++ (parseMod part.2).2
  | .mJSON => "?" ++ (parseMod part.2).2
  | .mNone => "?" ++ (parseMod part.2).2

/-- Spec-side bound variable contributed by a single interpolation: plain
values are bound as themselves, `JSON` values as their serialisation,
`ID`/`LIT` values are not bound. -/
def specChunkVar (jsonStringify : JsVal → String) (part : JsVal × String) : Option JsVal :=
  match (parseMod part.2).1 with
  | .mID => none
  | .mLIT => none
  | .mJSON => some (JsVal.vstr (jsonStringify part.1))
  | .mNone => some part.1

/-- Concatenation of a list of strings. -/
def joinAll : List String → String
  | [] => ""
  | s :: rest => s ++ joinAll rest

/-- Spec-side SQL text: head chunk followed by each interpolation's fragment. -/
def specSqlOut (head : String) (parts : List (JsVal × String)) : String :=
  head ++ joinAll (parts.map specChunkOut)

/-- Spec-side bound-variable list: the bound variables of the interpolations,
in template order. -/
def specSqlVars (jsonStringify : JsVal → String)
    (parts : List (JsVal × String)) : List JsVal :=
  parts.filterMap (specChunkVar jsonStringify)

/-! ### Busy-retry loops (claim C8) -/

/-- `RETRY_COUNT` from part_001 line 13. -/
def RETRY_COUNT : Nat := 10

/-- Outcome of one attempt of a SQLite operation, as observed by the retry
loops: success, a `SQLITE_BUSY` error, or any other error. -/
inductive QueryOutcome where
  | ok | busy | otherErr
deriving DecidableEq, Repr

/-- The `BEGIN IMMEDIATE` retry loop of `__withTransaction`
(part_001 lines 516-530): `outcomes i` is the result of the `i`-th attempt;
on a busy error with non-zero budget the call recurses with `busyRetry - 1`,
otherwise the error escapes.  Returns the index of the successful attempt. -/
def beginRetry (outcomes : Nat → QueryOutcome) (attempt busyRetry : Nat) :
    Except QueryOutcome Nat :=
  match outcomes attempt, busyRetry with
  | .ok, _ => .ok attempt
  | .otherErr, _ => .error .otherErr
  | .busy, 0 => .error .busy
  | .busy, b + 1 => beginRetry outcomes (attempt + 1) b

/-- The per-statement busy retry of `_call` (part_001 lines 337-358).  The
source tests the old value of `busyRetry` and post-decrements
(`busyRetry--`), which yields the same retry budget as `beginRetry`. -/
def callRetry (outcomes : Nat → QueryOutcome) (attempt busyRetry : Nat) :
    Except QueryOutcome Nat :=
  match outcomes attempt, busyRetry with
  | .ok, _ => .ok attempt
  | .otherErr, _ => .error .otherErr
  | .busy, 0 => .error .busy
  | .busy, b + 1 => callRetry outcomes (attempt + 1) b

/-! ### Transaction serialisation via the chained promise (claims C7, C10)

`withTransaction` (part_001 lines 505-514) serialises concurrent callers by
chaining: `this.transactionP = this.transactionP.then(next, next)`.  Under
JS promise semantics, the continuation registered with `.then(next, next)`
runs exactly when the previous promise settles — whether it was fulfilled or
rejected — and the promise of call `k` settles exactly when its
`__withTransaction(fn)` body finishes (commit or rollback + rethrow).

We model this as a trace system over the transaction bodies: body `k` may
start only when body `k - 1` has settled (with either outcome), a body that
has started may finish with either outcome, and the scheduler is otherwise
free to interleave.  Serialisation and FIFO ordering are *derived* from the
chain dependency, not assumed. -/

/-- Lifecycle phase of the `k`-th queued transaction body: not yet started,
currently executing between `BEGIN` and `END`/`ROLLBACK`, or settled (the
Boolean records whether `fn` committed (`true`) or threw / rolled back). -/
inductive TxPhase where
  | pending
  | running
  | settled (committed : Bool)
deriving DecidableEq, Repr

/-- Observable scheduler events: body `k` starts executing (its
`BEGIN IMMEDIATE` succeeds and `begin` is emitted), or body `k` finishes
(`END` + `end` signals when `committed`, `ROLLBACK` + `rollback` otherwise). -/
inductive TxEvt where
  | start (k : Nat)
  | finish (k : Nat) (committed : Bool)
deriving DecidableEq, Repr

/-- Phase of body `k` in the state (out-of-range indices yield `none`). -/
def phAt : List TxPhase → Nat → Option TxPhase
  | [], _ => none
  | p :: _, 0 => some p
  | _ :: rest, k + 1 => phAt rest k

/-- Replace the phase of body `k`. -/
def setAt : List TxPhase → Nat → TxPhase → List TxPhase
  | [], _, _ => []
  | _ :: rest, 0, q => q :: rest
  | p :: rest, k + 1, q => p :: setAt rest k q

/-- Is this phase a settled one (either outcome)? -/
def isSettled : TxPhase → Bool
  | .settled _ => true
  | _ => false

/-- The chain dependency of `transactionP.then(next, next)`: the
continuation of body `k` is registered on the promise of body `k - 1`, and
`.then` with the same function in both positions fires it on fulfilment
*and* on rejection.  Body `0` is chained to the initial resolved promise. -/
def predSettled (st : List TxPhase) (k : Nat) : Bool :=
  match k with
  | 0 => true
  | j + 1 =>
    match phAt st j with
    | some p => isSettled p
    | none => false

/-- May event `e` fire in state `st`?  A body may start when it is still
pending and its chain predecessor has settled; a body may finish only while
it is running. -/
def stepOk (st : List TxPhase) : TxEvt → Bool
  | .start k => (phAt st k == some .pending) && predSettled st k
  | .finish k _ => phAt st k == some .running

/-- Effect of event `e` on the state. -/
def applyEvt (st : List TxPhase) : TxEvt → List TxPhase
  | .start k => setAt st k .running
  | .finish k c => setAt st k (.settled c)

/-- Is `tr` a legal scheduling of events from state `st`? -/
def validFrom (st : List TxPhase) : List TxEvt → Bool
  | [] => true
  | e :: rest => stepOk st e && validFrom (applyEvt st e) rest

/-- Initial state for `n` queued `withTransaction` calls: all pending. -/
def initTx (n : Nat) : List TxPhase := List.replicate n .pending

/-- A legal trace of `n` chained `withTransaction` bodies. -/
def ValidTrace (n : Nat) (tr : List TxEvt) : Bool := validFrom (initTx n) tr

/-- All states visited while running `tr` from `st`, initial state included. -/
def statesAlong (st : List TxPhase) : List TxEvt → List (List TxPhase)
  | [] => [st]
  | e :: rest => st :: statesAlong (applyEvt st e) rest

/-- Number of bodies currently executing. -/
def runningCount : List TxPhase → Nat
  | [] => 0
  | .running :: rest => runningCount rest + 1
  | _ :: rest => runningCount rest

/-- Number of settled bodies. -/
def settledCount : List TxPhase → Nat
  | [] => 0
  | p :: rest => (if isSettled p then 1 else 0) + settledCount rest

/-- The indices of the bodies in the order they started. -/
def startsOf : List TxEvt → List Nat
  | [] => []
  | .start k :: rest => k :: startsOf rest
  | .finish _ _ :: rest => startsOf rest

/-- Everything in the list is still pending. -/
def allPending (l : List TxPhase) : Bool := l.all (· == .pending)

/-- Shape invariant of reachable states: a (possibly empty) block of settled
bodies, then at most one running body, then only pending bodies. -/
def shape : List TxPhase → Bool
  | [] => true
  | .settled _ :: rest => shape rest
  | .running :: rest => allPending rest
  | .pending :: rest => allPending rest

/-- The full trace in which each queued body runs to completion in queue
order, body `k` finishing with outcome `outs[k]`. -/
def completeTraceFrom (k : Nat) : List Bool → List TxEvt
  | [] => []
  | c :: rest => .start k :: .finish k c :: completeTraceFrom (k + 1) rest

/-- The complete trace of all queued bodies starting from body 0. -/
def completeTrace (outs : List Bool) : List TxEvt := completeTraceFrom 0 outs

/-! ### The event dispatch engine (claims C1-C6)

Modelled from the spec: the EventSourcingDB implementation is not among the
provided sources — only its tests are — so the engine below follows spec
§3-§4.5 and §7: the preprocess → reduce → apply → derive pipeline, run over
the registered models in registry order, with sub-events appended to the
current node's child list and processed depth-first pre-order, a maximum
dispatch depth, replay clearing of the `events` column, version-pointer
maintenance in the metadata model, and the structured error taxonomy.

The engine is generic over the store state `σ` and the row type `ρ` of the
registered models; handlers are pure functions that also report the list of
sub-event types they dispatched. -/

/-- The view of the event a handler receives: its version and type (the
fields the engine's contract constrains). -/
structure EvView where
  v : Nat
  type : String
deriving DecidableEq, Repr

/-- Modelled from the spec (§3 "Reduction result"): what a reducer returns;
absent keys mean "no change".  The `events` key is collected separately by
the engine (`ROut.retEvents`). -/
structure Reduction (ρ : Type) where
  set : List ρ := []
  ins : List ρ := []
  upd : List ρ := []
  rm : List String := []
deriving DecidableEq, Repr

/-- What a preprocessor call produces: it may leave the event alone, replace
(or, in JS, mutate) it, or return `{error}`; in every non-error case it may
also have dispatched sub-events.  A deleted `event.type` is modelled as the
empty string (both `delete event.type` and `event.type = ''` are falsy). -/
inductive PreOut where
  | ok (dispatched : List String)
  | replace (e : EvView) (dispatched : List String)
  | err (msg : String)

/-- What a reducer call produces: the (possibly falsy) reduction, the
sub-events dispatched through `dispatch(...)`, and the ones returned under
the `events` key of the reduction. -/
structure ROut (ρ : Type) where
  red : Option (Reduction ρ) := none
  dispatched : List String := []
  retEvents : List String := []

/-- Modelled from the spec (§2 "Model Registry", §3 "Model"): a named model
with optional phase handlers and the row-level write primitives that the
apply phase drives.  Handlers receive the event view, `isMainEvent`, and the
current store state. -/
structure Model (σ ρ : Type) where
  name : String
  preprocessor : Option (EvView → Bool → σ → PreOut) := none
  reducer : Option (EvView → Bool → σ → ROut ρ) := none
  deriver : Option (EvView → Bool → σ → Except String (σ × List String)) := none
  rmRow : String → σ → σ := fun _ s => s
  insRow : ρ → σ → σ := fun _ s => s
  setRow : ρ → σ → σ := fun _ s => s
  updRow : ρ → σ → σ := fun _ s => s

/-- A processed event node: version, type, per-model reduction results
(`none` = null, i.e. not handled), child events in dispatch order, and the
structured error map. -/
inductive PEvent (ρ : Type) : Type where
  | mk (v : Nat) (type : String) (result : Option (List (String × Reduction ρ)))
      (events : List (PEvent ρ)) (error : Option (List (String × String)))

/-- Version of a processed event. -/
def PEvent.v {ρ : Type} : PEvent ρ → Nat
  | .mk v _ _ _ _ => v

/-- Type of a processed event. -/
def PEvent.type {ρ : Type} : PEvent ρ → String
  | .mk _ t _ _ _ => t

/-- Result map of a processed event. -/
def PEvent.result {ρ : Type} : PEvent ρ → Option (List (String × Reduction ρ))
  | .mk _ _ r _ _ => r

/-- Child events of a processed event. -/
def PEvent.events {ρ : Type} : PEvent ρ → List (PEvent ρ)
  | .mk _ _ _ es _ => es

/-- Error map of a processed event. -/
def PEvent.error {ρ : Type} : PEvent ρ → Option (List (String × String))
  | .mk _ _ _ _ e => e

/-- A row of the event queue table (`v, type, result, events, error`; the
fields a queued-but-unprocessed or replayed event carries). -/
structure QRow (ρ : Type) where
  v : Nat
  type : String
  result : Option (List (String × Reduction ρ)) := none
  events : List (PEvent ρ) := []
  error : Option (List (String × String)) := none

/-- Engine state: the model stores plus the metadata model's version
pointer `V`. -/
structure EState (σ : Type) where
  stores : σ
  version : Nat
deriving Repr

/-- Modelled from the spec (§4.3 phase 1): run the preprocessors in registry
order.  A preprocessor that deletes `event.type` or changes `event.v` (or
returns `{error}`) aborts the event with a structured error under
`_preprocess_<modelName>`; otherwise the (possibly replaced) event and the
dispatched sub-event types are threaded through.  This also models the
engine's `_preprocessor` entry point exercised by the tests. -/
def runPre {σ ρ : Type} (e : EvView) (isMain : Bool) (st : σ) :
    List (Model σ ρ) → Except (String × String) (EvView × List String)
  | [] => .ok (e, [])
  | m :: rest =>
    match m.preprocessor with
    | none => runPre e isMain st rest
    | some p =>
      match p e isMain st with
      | .ok d =>
        match runPre e isMain st rest with
        | .error err => .error err
        | .ok (e2, d2) => .ok (e2, d ++ d2)
      | .replace e1 d =>
        if e1.type = "" then
          .error ("_preprocess_" ++ m.name,
            "preprocessor removed the type of the event")
        else if e1.v ≠ e.v then
          .error ("_preprocess_" ++ m.name,
            "preprocessor changed the version of the event")
        else
          match runPre e1 isMain st rest with
          | .error err => .error err
          | .ok (e2, d2) => .ok (e2, d ++ d2)
      | .err msg => .error ("_preprocess_" ++ m.name, msg)

/-- Modelled from the spec (§4.3 phase 2): run the reducers in registry
order; the result map contains exactly the models whose reducer returned a
non-falsy reduction, and dispatched plus returned sub-events are collected
in order. -/
def runRed {σ ρ : Type} (e : EvView) (isMain : Bool) (st : σ) :
    List (Model σ ρ) → List (String × Reduction ρ) × List String
  | [] => ([], [])
  | m :: rest =>
    match m.reducer with
    | none => runRed e isMain st rest
    | some r =>
      let out := r e isMain st
      let (res, disp) := runRed e isMain st rest
      match out.red with
      | some red => ((m.name, red) :: res, out.dispatched ++ out.retEvents ++ disp)
      | none => (res, out.dispatched ++ out.retEvents ++ disp)

/-- Apply one model's reduction to its store: `rm`, then `ins`, then `set`,
then `upd`, as §4.3 phase 3 orders them. -/
def applyReduction {σ ρ : Type} (m : Model σ ρ) (red : Reduction ρ) (st : σ) : σ :=
  let st := red.rm.foldl (fun s i => m.rmRow i s) st
  let st := red.ins.foldl (fun s r => m.insRow r s) st
  let st := red.set.foldl (fun s r => m.setRow r s) st
  red.upd.foldl (fun s r => m.updRow r s) st

/-- Modelled from the spec (§4.3 phase 3, the engine's `_applyEvent`): apply
the collected reductions model by model in registry order, then advance the
metadata version pointer to the event's `v` — for the main (root) event
only; children never advance `V`. -/
def applyEvent {σ ρ : Type} (models : List (Model σ ρ))
    (result : List (String × Reduction ρ)) (v : Nat) (isMain : Bool)
    (st : EState σ) : EState σ :=
  let stores := models.foldl
    (fun s m =>
      match result.find? (fun p => p.1 == m.name) with
      | some pr => applyReduction m pr.2 s
      | none => s)
    st.stores
  { stores := stores, version := if isMain then v else st.version }

/-- Modelled from the spec (§4.3 phase 4): run the derivers in registry
order; a deriver may write to the stores directly and dispatch sub-events; a
deriver that throws aborts the event with `_derive_<modelName>`. -/
def runDer {σ ρ : Type} (e : EvView) (isMain : Bool) :
    List (Model σ ρ) → σ → Except (String × String) (σ × List String)
  | [], st => .ok (st, [])
  | m :: rest, st =>
    match m.deriver with
    | none => runDer e isMain rest st
    | some d =>
      match d e isMain st with
      | .error msg => .error ("_derive_" ++ m.name, msg)
      | .ok (st1, disp) =>
        match runDer e isMain rest st1 with
        | .error err => .error err
        | .ok (st2, disp2) => .ok (st2, disp ++ disp2)

/-- Modelled from the spec (§4.3 recursion guard): the maximum dispatch
depth. -/
def MAX_DEPTH : Nat := 100

/-- The `.type1.type2…` path of an event chain, used in the depth error. -/
def typePath (path : List String) : String :=
  path.foldl (fun a t => a ++ "." ++ t) ""

/-- The `_handle` error message for an exceeded dispatch depth: the
type-path of the offending chain followed by the `deep` token. -/
def deepMsg (path : List String) : String :=
  typePath path ++ ": events are too deep"

/-- One step of processing a node's dispatched children: run `recur` (the
processing of one child) on the state threaded so far, short-circuiting
errors, and append the processed child to the sibling list. -/
def childStep {σ ρ : Type}
    (recur : String → EState σ → Except (String × String) (PEvent ρ × EState σ))
    (acc : Except (String × String) (List (PEvent ρ) × EState σ))
    (t : String) : Except (String × String) (List (PEvent ρ) × EState σ) :=
  match acc with
  | .error e => .error e
  | .ok (kids, s) =>
    match recur t s with
    | .error e => .error e
    | .ok (kid, s2) => .ok (kids ++ [kid], s2)

/-- Modelled from the spec (§4.3): process one event node — preprocess,
reduce, apply, derive, then recurse into the children dispatched by the
phases, depth-first and in dispatch order, threading the store state from
sibling to sibling.  `fuel` is the remaining dispatch depth; `path` lists
the event types from the root to this node; children share the parent's `v`
and are processed as non-main events; any phase error aborts the node.
Exhausted depth aborts with a `_handle` error carrying the type path and
the `deep` token. -/
def processNode {σ ρ : Type} (models : List (Model σ ρ)) :
    Nat → List String → EvView → Bool → EState σ →
      Except (String × String) (PEvent ρ × EState σ)
  | 0, path, _, _, _ => .error ("_handle", deepMsg path)
  | fuel1 + 1, path, ev0, isMain, st =>
    match runPre ev0 isMain st.stores models with
    | .error e => .error e
    | .ok (ev, preDisp) =>
      let (resultMap, redDisp) := runRed ev isMain st.stores models
      let st1 := applyEvent models resultMap ev.v isMain st
      match runDer ev isMain models st1.stores with
      | .error e => .error e
      | .ok (stores2, derDisp) =>
        let init : Except (String × String) (List (PEvent ρ) × EState σ) :=
          .ok ([], { stores := stores2, version := st1.version })
        match (preDisp ++ redDisp ++ derDisp).foldl
            (childStep (fun t s => processNode models fuel1 (path ++ [t])
              { v := ev.v, type := t } false s))
            init with
        | .error e => .error e
        | .ok (kids, stFinal) =>
          .ok (.mk ev.v ev.type (some resultMap) kids none, stFinal)

/-- The signals the engine emits per root event: `result` after a commit,
`error` after a failure. -/
inductive Signal where
  | result
  | errored
deriving DecidableEq, Repr

/-- Outcome of handling one root event: the written-back event row, the new
engine state, and the emitted signals. -/
structure RootOut (σ ρ : Type) where
  event : PEvent ρ
  state : EState σ
  signals : List Signal

/-- Modelled from the spec (§4.3, §4.5, §7): handle one root event.  The
row's pre-existing `events` (and stale `result`) are cleared before the
phases re-run — the node is rebuilt from scratch — giving the replay
semantics of §4.3.  On success the processed tree and the updated state are
committed and `result` is emitted once; on failure the transaction rolls
back (stores revert), the row is rewritten with the structured error, the
version is still consumed, and `error` is emitted once. -/
def handleRoot {σ ρ : Type} (models : List (Model σ ρ)) (row : QRow ρ)
    (st : EState σ) : RootOut σ ρ :=
  match processNode models MAX_DEPTH [row.type]
      { v := row.v, type := row.type } true st with
  | .ok (pe, st1) => { event := pe, state := st1, signals := [.result] }
  | .error (k, msg) =>
    { event := .mk row.v row.type none [] (some [(k, msg)])
      state := { stores := st.stores, version := row.v }
      signals := [.errored] }

/-- Modelled from the spec (§4.2): the highest version in the queue. -/
def maxV {ρ : Type} (q : List (QRow ρ)) : Nat :=
  q.foldl (fun a r => max a r.v) 0

/-- Modelled from the spec (§4.2 `add`): allocate `v = max(v) + 1` and
append the new row. -/
def queueAdd {ρ : Type} (q : List (QRow ρ)) (type : String) :
    List (QRow ρ) × QRow ρ :=
  let row : QRow ρ := { v := maxV q + 1, type := type }
  (q ++ [row], row)

/-- Outcome of a sequence of dispatches: the handled events in `v` order,
the final state, and all emitted signals. -/
structure DispatchOut (σ ρ : Type) where
  events : List (PEvent ρ)
  state : EState σ
  signals : List Signal

/-- Modelled from the spec (§4.3 "On dispatch"): a burst of `dispatch`
calls issued without awaiting.  Each call first enqueues its event in call
order (so the queue assigns sequential `v` values), then the worker
processes the queued events strictly in `v` order, threading the state. -/
def dispatchAll {σ ρ : Type} (models : List (Model σ ρ)) (types : List String)
    (st : EState σ) : DispatchOut σ ρ :=
  let q := types.foldl (fun q t => (queueAdd q t).1) []
  q.foldl
    (fun (acc : DispatchOut σ ρ) row =>
      let out := handleRoot models row acc.state
      { events := acc.events ++ [out.event]
        state := out.state
        signals := acc.signals ++ out.signals })
    { events := [], state := st, signals := [] }

/-! ### Concrete scenario models

These instantiate the engine with the models the tests register.  The `foo`
handlers are translated from the test sources (`unnamed/part_000`); the
`count` model of the test helpers and the engine entry points are modelled
from the spec. -/

/-- A row of the `foo` model in the depth-first scenario: an id and the
accumulated `all` field. -/
structure FooRow where
  id : String
  all : String
deriving DecidableEq, Repr

/-- Upsert a row into a list store keyed by `id`. -/
def upsertFoo (row : FooRow) (st : List FooRow) : List FooRow :=
  if st.any (fun r => r.id == row.id) then
    st.map (fun r => if r.id == row.id then row else r)
  else st ++ [row]

/-- The `foo` reducer of the depth-first test (part_000 lines 51-54): on
`hi` it sets the row `{id: 'hi', all: ''}`; on `3` it dispatches `4`;
otherwise it is a no-op. -/
def fooReducerDF (e : EvView) (_ : Bool) (_ : List FooRow) : ROut FooRow :=
  if e.type == "hi" then { red := some { set := [{ id := "hi", all := "" }] } }
  else if e.type == "3" then { red := none, dispatched := ["4"] }
  else { red := none }

/-- The `foo` deriver of the depth-first test (part_000 lines 55-64): on
`hi` it dispatches `1` and `3`, on `1` it dispatches `2`, on `3` it
dispatches `5`; it then reads row `hi` and appends `event.type` to its
`all` field (reading a missing row would throw in JS). -/
def fooDeriverDF (e : EvView) (_ : Bool) (st : List FooRow) :
    Except String (List FooRow × List String) :=
  let disp :=
    (if e.type == "hi" then ["1", "3"] else []) ++
    (if e.type == "1" then ["2"] else []) ++
    (if e.type == "3" then ["5"] else [])
  match st.find? (fun r => r.id == "hi") with
  | none => .error "cannot read all of undefined"
  | some t => .ok (upsertFoo { id := "hi", all := t.all ++ e.type } st, disp)

/-- The registry of the depth-first test: the single `foo` model. -/
def dfModels : List (Model (List FooRow) FooRow) :=
  [{ name := "foo"
     reducer := some fooReducerDF
     deriver := some fooDeriverDF
     setRow := upsertFoo }]

/-- The `foo` deriver of the infinite-recursion test (part_000 lines
80-82): dispatch `hi` on every `hi`. -/
def fooDeriverRec (e : EvView) (_ : Bool) (st : List FooRow) :
    Except String (List FooRow × List String) :=
  .ok (st, if e.type == "hi" then ["hi"] else [])

/-- The registry of the infinite-recursion test. -/
def recModels : List (Model (List FooRow) FooRow) :=
  [{ name := "foo", deriver := some fooDeriverRec }]

/-- The `foo` deriver of the replay test (part_000 lines 100-102):
dispatch `ho` on every `hi`. -/
def fooDeriverHo (e : EvView) (_ : Bool) (st : List FooRow) :
    Except String (List FooRow × List String) :=
  .ok (st, if e.type == "hi" then ["ho"] else [])

/-- The registry of the replay test. -/
def hoModels : List (Model (List FooRow) FooRow) :=
  [{ name := "foo", deriver := some fooDeriverHo }]

/-- A row of the test helpers' `count` model: the running total and the
per-type counts. -/
structure CountRow where
  id : String
  total : Nat
  byType : List (String × Nat)
deriving DecidableEq, Repr

/-- Increment the per-type count for `t` (append `(t, 1)` on first sight). -/
def bumpType (l : List (String × Nat)) (t : String) : List (String × Nat) :=
  if l.any (fun p => p.1 == t) then
    l.map (fun p => if p.1 == t then (p.1, p.2 + 1) else p)
  else l ++ [(t, 1)]

/-- Upsert a row into a list store keyed by `id`. -/
def upsertCount (row : CountRow) (st : List CountRow) : List CountRow :=
  if st.any (fun r => r.id == row.id) then
    st.map (fun r => if r.id == row.id then row else r)
  else st ++ [row]

/-- Modelled from the spec (§8 scenario 5): the counter model's reducer
reads the current cumulative counts from its store and returns a `set` of
the incremented `count` row, so the result at each version reflects all
events applied so far. -/
def countReducer (e : EvView) (_ : Bool) (st : List CountRow) : ROut CountRow :=
  let cur := (st.find? (fun r => r.id == "count")).getD
    { id := "count", total := 0, byType := [] }
  { red := some
      { set := [{ id := "count", total := cur.total + 1
                  byType := bumpType cur.byType e.type }] } }

/-- The registry with the counter model. -/
def countModels : List (Model (List CountRow) CountRow) :=
  [{ name := "count"
     reducer := some countReducer
     setRow := upsertCount }]

/-- The `meep` preprocessor of the preprocessors test
(src/EventSourcingDB/events.js lines 90-110): on `pre type` it deletes
`event.type`, on `pre version` it sets `event.v = 123`, on `bad event` it
returns `{error: 'Yeah, no.'}`, on `create_thing` it rewrites the type. -/
def meepPre (e : EvView) (_ : Bool) (_ : Unit) : PreOut :=
  if e.type == "create_thing" then .replace { e with type := "set_thing" } []
  else if e.type == "pre type" then .replace { e with type := "" } []
  else if e.type == "pre version" then .replace { e with v := 123 } []
  else if e.type == "bad event" then .err "Yeah, no."
  else .ok []

/-- The registry of the preprocessors test (row writes are irrelevant to the
claim, so the store is trivial). -/
def meepModels : List (Model Unit Unit) :=
  [{ name := "meep", preprocessor := some meepPre }]

/-- Substring test on strings, used to state the
`expect.stringContaining` assertions. -/
def containsStr (hay needle : String) : Bool :=
  hay.toList.tails.any (fun t => needle.toList.isPrefixOf t)

/-- `n` copies of `s` concatenated, used to state the `(\.hi)+` pattern. -/
def repeatStr (s : String) : Nat → String
  | 0 => ""
  | n + 1 => s ++ repeatStr s n

/-! ### Theorems: busy retry (C8) -/

/-- The two retry loops are the same function: `busyRetry--` in `_call`
tests the old value and decrements, which is the `busyRetry - 1` recursion
of `__withTransaction`. -/
theorem callRetry_eq_beginRetry (outcomes : Nat → QueryOutcome) :
    ∀ (b a : Nat), callRetry outcomes a b = beginRetry outcomes a b := by
  intro b
  induction b with
  | zero =>
    intro a
    unfold callRetry beginRetry
    cases outcomes a <;> rfl
  | succ b ih =>
    intro a
    unfold callRetry beginRetry
    cases outcomes a with
    | ok => rfl
    | busy => exact ih (a + 1)
    | otherErr => rfl

/-- If the first `k` attempts are busy and attempt `k` succeeds, a budget of
at least `k` retries recovers silently and succeeds at attempt `k`. -/
theorem beginRetry_recovers (outcomes : Nat → QueryOutcome) :
    ∀ (k a b : Nat), k ≤ b →
      (∀ i, i < k → outcomes (a + i) = .busy) → outcomes (a + k) = .ok →
      beginRetry outcomes a b = .ok (a + k) := by
  intro k
  induction k with
  | zero =>
    intro a b _ _ hok
    unfold beginRetry
    rw [show a + 0 = a from rfl] at hok
    rw [hok]
    rfl
  | succ k ih =>
    intro a b hkb hbusy hok
    have hb0 : outcomes a = .busy := by
      have := hbusy 0 (Nat.succ_pos k)
      simpa using this
    obtain ⟨b1, rfl⟩ : ∃ b1, b = b1 + 1 :=
      ⟨b - 1, by omega⟩
    unfold beginRetry
    rw [hb0]
    have h1 : ∀ i, i < k → outcomes (a + 1 + i) = .busy := by
      intro i hi
      have := hbusy (i + 1) (by omega)
      rwa [show a + (i + 1) = a + 1 + i by omega] at this
    have h2 : outcomes (a + 1 + k) = .ok := by
      rwa [show a + 1 + k = a + (k + 1) by omega]
    have := ih (a + 1) b1 (by omega) h1 h2
    rwa [show a + 1 + k = a + (k + 1) by omega] at this

/-- If every attempt within the budget is busy, the busy error surfaces. -/
theorem beginRetry_exhausts (outcomes : Nat → QueryOutcome) :
    ∀ (b a : Nat), (∀ i, i ≤ b → outcomes (a + i) = .busy) →
      beginRetry outcomes a b = .error .busy := by
  intro b
  induction b with
  | zero =>
    intro a h
    unfold beginRetry
    have := h 0 (Nat.le_refl 0)
    simp only [Nat.add_zero] at this
    rw [this]
  | succ b ih =>
    intro a h
    unfold beginRetry
    have h0 : outcomes a = .busy := by simpa using h 0 (Nat.zero_le _)
    rw [h0]
    apply ih
    intro i hi
    have := h (i + 1) (by omega)
    rwa [show a + (i + 1) = a + 1 + i by omega] at this

/-- C8: a `SQLITE_BUSY` on `BEGIN IMMEDIATE` (and likewise on an individual
statement) is retried up to `RETRY_COUNT = 10` times: when some attempt
within the budget succeeds the busy errors are recovered silently and the
call succeeds, and when every attempt in the budget is busy the busy error
surfaces to the caller. -/
theorem busy_retry_bounded (outcomes : Nat → QueryOutcome) :
    RETRY_COUNT = 10 ∧
    (∀ k, k ≤ RETRY_COUNT → (∀ i, i < k → outcomes i = .busy) →
      outcomes k = .ok →
      beginRetry outcomes 0 RETRY_COUNT = .ok k ∧
      callRetry outcomes 0 RETRY_COUNT = .ok k) ∧
    ((∀ i, i ≤ RETRY_COUNT → outcomes i = .busy) →
      beginRetry outcomes 0 RETRY_COUNT = .error .busy ∧
      callRetry outcomes 0 RETRY_COUNT = .error .busy) := by
  refine ⟨rfl, ?_, ?_⟩
  · intro k hk hbusy hok
    have h := beginRetry_recovers outcomes k 0 RETRY_COUNT hk
      (by intro i hi; simpa using hbusy i hi) (by simpa using hok)
    simp only [Nat.zero_add] at h
    exact ⟨h, by rw [callRetry_eq_beginRetry]; exact h⟩
  · intro hbusy
    have h := beginRetry_exhausts outcomes RETRY_COUNT 0
      (by intro i hi; simpa using hbusy i hi)
    exact ⟨h, by rw [callRetry_eq_beginRetry]; exact h⟩

/-- Witness for C8 at concrete inputs: three busy attempts then success is
recovered; eleven busy attempts exhaust the budget of ten retries. -/
theorem busy_retry_bounded_witness :
    (beginRetry (fun i => if i < 3 then .busy else .ok) 0 RETRY_COUNT = .ok 3 ∧
      callRetry (fun i => if i < 3 then .busy else .ok) 0 RETRY_COUNT = .ok 3) ∧
    (beginRetry (fun _ => .busy) 0 RETRY_COUNT = .error .busy ∧
      callRetry (fun _ => .busy) 0 RETRY_COUNT = .error .busy) := by
  constructor
  · exact (busy_retry_bounded (fun i => if i < 3 then .busy else .ok)).2.1 3
      (by decide) (fun i hi => by simp [hi]) (by simp)
  · exact (busy_retry_bounded (fun _ => .busy)).2.2 (fun i _ => rfl)

/-! ### Theorems: SQL templating (C9) -/

/-- The loop's quote-escaping agrees with the spec-side per-character
escape. -/
theorem escDoubleQuotes_eq_spec (l : List Char) :
    escDoubleQuotes l = l.flatMap specEscChar := by
  induction l with
  | nil => rfl
  | cons c rest ih =>
    simp only [escDoubleQuotes, List.flatMap_cons, specEscChar]
    split <;> simp [ih]

/-- `quoteSqlId` produces exactly the spec-side quoted identifier: the
coerced value wrapped in double quotes with every embedded `"` doubled. -/
theorem quoteSqlId_eq_spec (v : JsVal) :
    quoteSqlId v =
      String.mk ('"' :: ((jsToString v).toList.flatMap specEscChar ++ ['"'])) := by
  show String.mk ['"'] ++ String.mk (escDoubleQuotes (jsToString v).toList)
      ++ String.mk ['"'] = _
  rw [escDoubleQuotes_eq_spec]
  rfl

/-- One loop iteration appends the spec-side fragment to the SQL text and
the spec-side binding (if any) to the variable list. -/
theorem sqlStep_eq_spec (jsonStringify : JsVal → String)
    (acc : String × List JsVal) (part : JsVal × String) :
    sqlStep jsonStringify acc part =
      (acc.1 ++ specChunkOut part,
        acc.2 ++ (specChunkVar jsonStringify part).toList) := by
  obtain ⟨val, str0⟩ := part
  unfold sqlStep specChunkOut specChunkVar
  rcases hpm : parseMod str0 with ⟨mod, str⟩
  cases mod with
  | mID =>
    simp only [hpm]
    rw [quoteSqlId_eq_spec]
    simp [String.append_assoc]
  | mJSON => simp [hpm, String.append_assoc]
  | mLIT => simp [hpm, String.append_assoc]
  | mNone => simp [hpm, String.append_assoc]

/-- The fold computes the spec-side text and variable list on top of any
accumulator. -/
theorem sql_foldl_eq_spec (jsonStringify : JsVal → String) :
    ∀ (parts : List (JsVal × String)) (acc : String × List JsVal),
      parts.foldl (sqlStep jsonStringify) acc =
        (acc.1 ++ joinAll (parts.map specChunkOut),
          acc.2 ++ parts.filterMap (specChunkVar jsonStringify)) := by
  intro parts
  induction parts with
  | nil => intro acc; simp [joinAll]
  | cons p rest ih =>
    intro acc
    simp only [List.foldl_cons, List.map_cons, List.filterMap_cons]
    rw [ih, sqlStep_eq_spec]
    cases hv : specChunkVar jsonStringify p <;>
      simp [joinAll, hv, String.append_assoc]

/-- C9: the `sql` template helper is a pure function from the template and
its interpolations to an SQL string plus a bound-variable list, and each
interpolation is handled by its modifier alone: plain values become `?`
placeholders with the value bound, `JSON` values become `?` placeholders
with their JSON serialisation bound, `ID` values are inlined as escaped
(quote-doubled) identifiers, and `LIT` values are inlined as literals —
`ID` and `LIT` contribute no bound variable. -/
theorem sql_templating_pure (jsonStringify : JsVal → String)
    (head : String) (parts : List (JsVal × String)) :
    sql jsonStringify head parts =
      (specSqlOut head parts, specSqlVars jsonStringify parts) := by
  unfold sql specSqlOut specSqlVars
  rw [sql_foldl_eq_spec]
  simp

/-! ### Theorems: transaction serialisation (C7, C10) -/

/-- The list `s, s+1, …, s+n-1`, for stating FIFO start order. -/
def natRange (s : Nat) : Nat → List Nat
  | 0 => []
  | n + 1 => s :: natRange (s + 1) n

/-- `natRange s n` has length `n`. -/
theorem natRange_length : ∀ (n s : Nat), (natRange s n).length = n := by
  intro n
  induction n with
  | zero => intro s; rfl
  | succ n ih => intro s; simp [natRange, ih]

/-- A list of pending phases has no running body. -/
theorem allPending_runningCount :
    ∀ (l : List TxPhase), allPending l = true → runningCount l = 0 := by
  intro l
  induction l with
  | nil => intro; rfl
  | cons p rest ih =>
    intro h
    simp only [allPending, List.all_cons, Bool.and_eq_true, beq_iff_eq] at h
    obtain ⟨h1, h2⟩ := h
    subst h1
    simpa [runningCount] using ih (by simpa [allPending] using h2)

/-- A list of pending phases has no settled body. -/
theorem allPending_settledCount :
    ∀ (l : List TxPhase), allPending l = true → settledCount l = 0 := by
  intro l
  induction l with
  | nil => intro; rfl
  | cons p rest ih =>
    intro h
    simp only [allPending, List.all_cons, Bool.and_eq_true, beq_iff_eq] at h
    obtain ⟨h1, h2⟩ := h
    subst h1
    simpa [settledCount, isSettled] using ih (by simpa [allPending] using h2)

/-- In a list of pending phases, every slot is pending. -/
theorem allPending_phAt :
    ∀ (l : List TxPhase) (k : Nat) (p : TxPhase), allPending l = true →
      phAt l k = some p → p = .pending := by
  intro l
  induction l with
  | nil => intro k p _ h; cases h
  | cons q rest ih =>
    intro k p hall h
    simp only [allPending, List.all_cons, Bool.and_eq_true, beq_iff_eq] at hall
    cases k with
    | zero =>
      simp only [phAt] at h
      cases h
      exact hall.1
    | succ j =>
      exact ih j p (by simpa [allPending] using hall.2) h

/-- A list of pending phases satisfies the shape invariant. -/
theorem allPending_shape :
    ∀ (l : List TxPhase), allPending l = true → shape l = true := by
  intro l
  induction l with
  | nil => intro; rfl
  | cons p rest ih =>
    intro h
    simp only [allPending, List.all_cons, Bool.and_eq_true, beq_iff_eq] at h
    obtain ⟨h1, h2⟩ := h
    have hrest : allPending rest = true := by simpa [allPending] using h2
    subst h1
    simpa [shape] using hrest

/-- The shape invariant bounds the number of running bodies by one. -/
theorem shape_runningCount :
    ∀ (l : List TxPhase), shape l = true → runningCount l ≤ 1 := by
  intro l
  induction l with
  | nil => intro; simp [runningCount]
  | cons p rest ih =>
    intro h
    cases p with
    | settled c => simpa [runningCount] using ih (by simpa [shape] using h)
    | running =>
      have : runningCount rest = 0 :=
        allPending_runningCount rest (by simpa [shape] using h)
      simp [runningCount, this]
    | pending =>
      have : runningCount rest = 0 :=
        allPending_runningCount rest (by simpa [shape] using h)
      simp [runningCount, this]

/-- Starting a body whose chain predecessor has settled: under the shape
invariant the started body is exactly the next queued one (its index equals
the number of settled bodies), nothing was running before, and the shape
invariant and the settled count are preserved while the running count
becomes one. -/
theorem start_ok :
    ∀ (l : List TxPhase) (k : Nat), shape l = true →
      phAt l k = some .pending → predSettled l k = true →
      shape (setAt l k .running) = true ∧
      runningCount l = 0 ∧
      k = settledCount l ∧
      settledCount (setAt l k .running) = settledCount l ∧
      runningCount (setAt l k .running) = 1 := by
  intro l
  induction l with
  | nil => intro k _ h; cases h
  | cons p rest ih =>
    intro k hshape hph hpred
    cases k with
    | zero =>
      simp only [phAt] at hph
      have hp : p = TxPhase.pending := by cases hph; rfl
      subst hp
      have hrest : allPending rest = true := by simpa [shape] using hshape
      refine ⟨by simpa [setAt, shape] using hrest, ?_, ?_, ?_, ?_⟩
      · simpa [runningCount] using allPending_runningCount rest hrest
      · simp [settledCount, isSettled, allPending_settledCount rest hrest]
      · simp [setAt, settledCount, isSettled]
      · simp [setAt, runningCount, allPending_runningCount rest hrest]
    | succ j =>
      simp only [phAt] at hph
      cases p with
      | settled c =>
        have hshape' : shape rest = true := by simpa [shape] using hshape
        have hpred' : predSettled rest j = true := by
          cases j with
          | zero => rfl
          | succ j1 =>
            simp only [predSettled, phAt] at hpred ⊢
            exact hpred
        obtain ⟨h1, h2, h3, h4, h5⟩ := ih j hshape' hph hpred'
        refine ⟨by simpa [setAt, shape] using h1, ?_, ?_, ?_, ?_⟩
        · simpa [runningCount] using h2
        · simp [settledCount, isSettled]; omega
        · simp [setAt, settledCount, isSettled]; omega
        · simpa [setAt, runningCount] using h5
      | running =>
        exfalso
        have hrest : allPending rest = true := by simpa [shape] using hshape
        cases j with
        | zero => simp [predSettled, phAt, isSettled] at hpred
        | succ j1 =>
          simp only [predSettled, phAt] at hpred
          cases hq : phAt rest j1 with
          | none => rw [hq] at hpred; cases hpred
          | some q =>
            rw [hq] at hpred
            have := allPending_phAt rest j1 q hrest hq
            subst this
            simp [isSettled] at hpred
      | pending =>
        exfalso
        have hrest : allPending rest = true := by simpa [shape] using hshape
        cases j with
        | zero => simp [predSettled, phAt, isSettled] at hpred
        | succ j1 =>
          simp only [predSettled, phAt] at hpred
          cases hq : phAt rest j1 with
          | none => rw [hq] at hpred; cases hpred
          | some q =>
            rw [hq] at hpred
            have := allPending_phAt rest j1 q hrest hq
            subst this
            simp [isSettled] at hpred

/-- Finishing the running body preserves the shape invariant, settles one
more body, and frees the single running slot. -/
theorem finish_ok :
    ∀ (l : List TxPhase) (k : Nat) (c : Bool), shape l = true →
      phAt l k = some .running →
      shape (setAt l k (.settled c)) = true ∧
      settledCount (setAt l k (.settled c)) = settledCount l + 1 ∧
      runningCount (setAt l k (.settled c)) + 1 = runningCount l := by
  intro l
  induction l with
  | nil => intro k c _ h; cases h
  | cons p rest ih =>
    intro k c hshape hph
    cases k with
    | zero =>
      simp only [phAt] at hph
      have hp : p = TxPhase.running := by cases hph; rfl
      subst hp
      have hrest : allPending rest = true := by simpa [shape] using hshape
      refine ⟨by simpa [setAt, shape] using allPending_shape rest hrest, ?_, ?_⟩
      · simp [setAt, settledCount, isSettled]; omega
      · simp [setAt, runningCount]
    | succ j =>
      simp only [phAt] at hph
      cases p with
      | settled c1 =>
        have hshape' : shape rest = true := by simpa [shape] using hshape
        obtain ⟨h1, h2, h3⟩ := ih j c hshape' hph
        refine ⟨by simpa [setAt, shape] using h1, ?_, ?_⟩
        · simp [setAt, settledCount, isSettled] at h2 ⊢; omega
        · simpa [setAt, runningCount] using h3
      | running =>
        exfalso
        have hrest : allPending rest = true := by simpa [shape] using hshape
        have := allPending_phAt rest j .running hrest hph
        cases this
      | pending =>
        exfalso
        have hrest : allPending rest = true := by simpa [shape] using hshape
        have := allPending_phAt rest j .running hrest hph
        cases this

/-- Main trace analysis: from any state satisfying the shape invariant,
every legal trace keeps at most one body running at all times, and the
bodies start in queue order, continuing from the number of bodies already
started. -/
theorem valid_shape_analysis :
    ∀ (tr : List TxEvt) (st : List TxPhase), shape st = true →
      validFrom st tr = true →
      (∀ s ∈ statesAlong st tr, runningCount s ≤ 1) ∧
      startsOf tr = natRange (settledCount st + runningCount st)
        (startsOf tr).length := by
  intro tr
  induction tr with
  | nil =>
    intro st hshape _
    constructor
    · intro s hs
      simp only [statesAlong, List.mem_singleton] at hs
      subst hs
      exact shape_runningCount _ hshape
    · rfl
  | cons e rest ih =>
    intro st hshape hvalid
    simp only [validFrom, Bool.and_eq_true] at hvalid
    obtain ⟨hstep, hvalid'⟩ := hvalid
    cases e with
    | start k =>
      simp only [stepOk, Bool.and_eq_true, beq_iff_eq] at hstep
      obtain ⟨hph, hpred⟩ := hstep
      obtain ⟨hshape', hrun0, hk, hsc, hrc⟩ := start_ok st k hshape hph hpred
      obtain ⟨hle, hstarts⟩ := ih (applyEvt st (.start k)) (by simpa [applyEvt] using hshape')
        hvalid'
      constructor
      · intro s hs
        simp only [statesAlong, List.mem_cons] at hs
        rcases hs with rfl | hs
        · exact shape_runningCount _ hshape
        · exact hle s hs
      · have hsum : settledCount (applyEvt st (.start k)) +
            runningCount (applyEvt st (.start k)) =
            settledCount st + runningCount st + 1 := by
          simp only [applyEvt]
          omega
        simp only [startsOf, List.length_cons, natRange]
        rw [hstarts]
        simp only [natRange_length]
        rw [hsum, hrun0, hk]
        simp
    | finish k c =>
      simp only [stepOk, beq_iff_eq] at hstep
      obtain ⟨hshape', hsc, hrc⟩ := finish_ok st k c hshape hstep
      obtain ⟨hle, hstarts⟩ := ih (applyEvt st (.finish k c))
        (by simpa [applyEvt] using hshape') hvalid'
      constructor
      · intro s hs
        simp only [statesAlong, List.mem_cons] at hs
        rcases hs with rfl | hs
        · exact shape_runningCount _ hshape
        · exact hle s hs
      · have hsum : settledCount (applyEvt st (.finish k c)) +
            runningCount (applyEvt st (.finish k c)) =
            settledCount st + runningCount st := by
          simp only [applyEvt]
          omega
        simp only [startsOf]
        rw [hstarts]
        simp only [natRange_length]
        rw [hsum]

/-- C7: in every legal scheduling of `n` chained `withTransaction` bodies,
at most one transaction body executes at any time, and the bodies start in
the order the `withTransaction` calls were queued (`0, 1, 2, …`). -/
theorem withTransaction_serialises (n : Nat) (tr : List TxEvt)
    (hvalid : ValidTrace n tr = true) :
    (∀ s ∈ statesAlong (initTx n) tr, runningCount s ≤ 1) ∧
    startsOf tr = natRange 0 (startsOf tr).length := by
  have hall : allPending (initTx n) = true := by
    simp [initTx, allPending, List.all_eq_true]
  have h := valid_shape_analysis tr (initTx n) (allPending_shape _ hall) hvalid
  rwa [allPending_settledCount _ hall, allPending_runningCount _ hall] at h

/-- Witness for C7 at a concrete legal trace of two chained bodies, the
second of which rolls back: the visited state in which body 0 runs has a
single running body, and the bodies start in queue order. -/
theorem withTransaction_serialises_witness :
    runningCount [TxPhase.running, TxPhase.pending] ≤ 1 ∧
    startsOf [TxEvt.start 0, TxEvt.finish 0 true, TxEvt.start 1, TxEvt.finish 1 false] =
      natRange 0 (startsOf [TxEvt.start 0, TxEvt.finish 0 true,
        TxEvt.start 1, TxEvt.finish 1 false]).length := by
  have h := withTransaction_serialises 2
    [TxEvt.start 0, TxEvt.finish 0 true, TxEvt.start 1, TxEvt.finish 1 false]
    (by decide)
  exact ⟨h.1 [TxPhase.running, TxPhase.pending] (by decide), h.2⟩

/-- The starts of the complete trace from index `k` are `k, k+1, …`. -/
theorem startsOf_completeTraceFrom :
    ∀ (outs : List Bool) (k : Nat),
      startsOf (completeTraceFrom k outs) = natRange k outs.length := by
  intro outs
  induction outs with
  | nil => intro k; rfl
  | cons c rest ih =>
    intro k
    simp only [completeTraceFrom, startsOf, List.length_cons, natRange]
    rw [ih]

/-- Slot `j` of a settled prefix is settled. -/
theorem phAt_settled_prefix :
    ∀ (flags : List Bool) (ys : List TxPhase) (j : Nat), j < flags.length →
      ∃ b, phAt (flags.map TxPhase.settled ++ ys) j = some (TxPhase.settled b) := by
  intro flags
  induction flags with
  | nil => intro ys j h; cases h
  | cons f rest ih =>
    intro ys j hj
    cases j with
    | zero => exact ⟨f, rfl⟩
    | succ j1 =>
      simp only [List.map_cons, List.cons_append, phAt]
      exact ih ys j1 (by simpa using hj)

/-- The first slot after a settled prefix of `flags.length` bodies. -/
theorem phAt_map_prefix :
    ∀ (flags : List Bool) (ys : List TxPhase),
      phAt (flags.map TxPhase.settled ++ ys) flags.length = phAt ys 0 := by
  intro flags
  induction flags with
  | nil => intro ys; rfl
  | cons f rest ih => intro ys; simpa [phAt] using ih ys

/-- Setting the first slot after a settled prefix of `flags.length` bodies. -/
theorem setAt_map_prefix :
    ∀ (flags : List Bool) (ys : List TxPhase) (q : TxPhase),
      setAt (flags.map TxPhase.settled ++ ys) flags.length q =
        flags.map TxPhase.settled ++ setAt ys 0 q := by
  intro flags
  induction flags with
  | nil => intro ys q; rfl
  | cons f rest ih => intro ys q; simp [setAt, ih]

/-- The chain predecessor of the slot right after a settled prefix has
settled. -/
theorem predSettled_after_settled :
    ∀ (flags : List Bool) (ys : List TxPhase),
      predSettled (flags.map TxPhase.settled ++ ys) flags.length = true := by
  intro flags ys
  cases hf : flags with
  | nil => rfl
  | cons f rest =>
    have hlt : rest.length < (f :: rest).length := by simp
    obtain ⟨b, hb⟩ := phAt_settled_prefix (f :: rest) ys rest.length hlt
    simp only [List.length_cons, predSettled]
    rw [hb]
    rfl

/-- The complete queue-order trace is legal from any state consisting of a
settled prefix followed by the pending queued bodies — regardless of the
commit/rollback outcome of every body. -/
theorem completeTrace_valid_from :
    ∀ (outs : List Bool) (flags : List Bool),
      validFrom (flags.map TxPhase.settled ++ List.replicate outs.length .pending)
        (completeTraceFrom flags.length outs) = true := by
  intro outs
  induction outs with
  | nil => intro flags; rfl
  | cons c rest ih =>
    intro flags
    show validFrom
        (flags.map TxPhase.settled ++
          (TxPhase.pending :: List.replicate rest.length TxPhase.pending))
        (TxEvt.start flags.length :: TxEvt.finish flags.length c ::
          completeTraceFrom (flags.length + 1) rest) = true
    have hst1 : applyEvt
        (flags.map TxPhase.settled ++
          (TxPhase.pending :: List.replicate rest.length TxPhase.pending))
        (TxEvt.start flags.length) =
        flags.map TxPhase.settled ++
          (TxPhase.running :: List.replicate rest.length TxPhase.pending) := by
      simp only [applyEvt, setAt_map_prefix]
      rfl
    have hst2 : applyEvt
        (flags.map TxPhase.settled ++
          (TxPhase.running :: List.replicate rest.length TxPhase.pending))
        (TxEvt.finish flags.length c) =
        (flags ++ [c]).map TxPhase.settled ++
          List.replicate rest.length TxPhase.pending := by
      simp only [applyEvt, setAt_map_prefix]
      simp [setAt]
    simp only [validFrom]
    rw [hst1, hst2]
    simp only [Bool.and_eq_true]
    refine ⟨?_, ?_, ?_⟩
    · simp [stepOk, phAt_map_prefix, phAt, predSettled_after_settled flags]
    · simp [stepOk, phAt_map_prefix, phAt]
    · have := ih (flags ++ [c])
      simpa [List.map_append, List.append_assoc] using this

/-- C10: a rolled-back transaction does not stall the chain.  With arbitrary
per-body outcomes — `false` meaning the body threw and its promise rejected
after `ROLLBACK` — the complete queue-order schedule is legal (each start is
enabled because `.then(next, next)` fires on the rejected outcome too), and
every queued body starts exactly once, in order. -/
theorem rejected_transaction_does_not_block (outs : List Bool) :
    ValidTrace outs.length (completeTrace outs) = true ∧
    startsOf (completeTrace outs) = natRange 0 outs.length := by
  constructor
  · have := completeTrace_valid_from outs []
    simpa [ValidTrace, initTx, completeTrace] using this
  · exact startsOf_completeTraceFrom outs 0

/-! ### Theorems: the dispatch engine (C1-C6) -/

/-- C1: in the depth-first scenario — deriver dispatches `1`, `3` on `hi`,
`2` on `1`, `5` on `3`, reducer dispatches `4` on `3`, and the deriver
appends `event.type` to field `all` of row `hi` — dispatching `hi` fires the
`result` listener exactly once, the root event has exactly the two
root-level children `1` and `3`, and row `hi` records the pre-order
visitation `hi12345`. -/
theorem depth_first_order_scenario :
    (dispatchAll dfModels ["hi"] { stores := [], version := 0 }).signals =
      [Signal.result] ∧
    (dispatchAll dfModels ["hi"] { stores := [], version := 0 }).events.map
      (fun e => e.events.map PEvent.type) = [["1", "3"]] ∧
    (dispatchAll dfModels ["hi"] { stores := [], version := 0 }).state.stores =
      [{ id := "hi", all := "hi12345" }] := by
  refine ⟨rfl, rfl, rfl⟩

/-- C2: dispatching `whattup` then `dude` without awaiting assigns `v = 1`
to the first call and `v = 2` to the second, and because the events are
applied strictly in `v` order the counter reducer sees cumulative state:
the result at `v = 1` counts only `whattup`, the result at `v = 2` counts
both. -/
theorem concurrent_dispatch_sequential_v :
    (dispatchAll countModels ["whattup", "dude"]
      { stores := [], version := 0 }).events.map PEvent.v = [1, 2] ∧
    (dispatchAll countModels ["whattup", "dude"]
      { stores := [], version := 0 }).events.map PEvent.result =
      [some [("count", { set :=
          [{ id := "count", total := 1, byType := [("whattup", 1)] }] })],
       some [("count", { set :=
          [{ id := "count", total := 2,
             byType := [("whattup", 1), ("dude", 1)] }] })]] := by
  refine ⟨rfl, by decide⟩

/-- C3: with a deriver that dispatches `hi` on every `hi`, dispatching `hi`
does not recurse forever: the root event fails (no `result` signal, so the
dispatch future rejects with the evented error), and `error._handle` is a
chain of `.hi` segments followed by `:` and a message containing `deep` —
i.e. it matches `/(\.hi)+:.*deep/`. -/
theorem recursion_depth_guard :
    (handleRoot recModels { v := 1, type := "hi" }
      { stores := [], version := 0 }).signals = [Signal.errored] ∧
    (handleRoot recModels { v := 1, type := "hi" }
      { stores := [], version := 0 }).event.result = none ∧
    ∃ k rest, 1 ≤ k ∧ containsStr rest "deep" = true ∧
      (handleRoot recModels { v := 1, type := "hi" }
        { stores := [], version := 0 }).event.error =
        some [("_handle", repeatStr ".hi" k ++ ":" ++ rest)] := by
  refine ⟨rfl, rfl, 101, " events are too deep", by decide, by decide⟩

/-- C4: processing a queue row ignores any pre-seeded `events` (and stale
`result`): the children are cleared and re-derived by the handlers, so
replaying an already-handled row yields the same `result` and `events` as
the original run.  Concretely, pre-seeding `{v: 5, type: 'hi', events:
[{type: 'deleteme'}]}` with a deriver that dispatches `ho` on `hi` yields
exactly one child, of type `ho`. -/
theorem replay_clears_subevents :
    (∀ (σ ρ : Type) (models : List (Model σ ρ)) (row : QRow ρ)
        (evs : List (PEvent ρ)) (res : Option (List (String × Reduction ρ)))
        (st : EState σ),
      handleRoot models { row with events := evs, result := res } st =
        handleRoot models row st) ∧
    (handleRoot hoModels
      { v := 5, type := "hi", events := [.mk 0 "deleteme" none [] none] }
      { stores := [], version := 0 }).event.events.map PEvent.type = ["ho"] ∧
    (handleRoot hoModels
      { v := 5, type := "hi", events := [.mk 0 "deleteme" none [] none] }
      { stores := [], version := 0 }).signals = [Signal.result] := by
  exact ⟨fun _ _ _ _ _ _ _ => rfl, rfl, rfl⟩

/-- C5: a preprocessor that deletes `event.type` aborts the event with an
error under `_preprocess_meep` whose text contains `type`; one that changes
`event.v` yields an error containing `version`; one that returns
`{error: 'Yeah, no.'}` yields that error verbatim. -/
theorem preprocessor_error_taxonomy :
    (∃ m, runPre { v := 0, type := "pre type" } true () meepModels =
        .error ("_preprocess_meep", m) ∧ containsStr m "type" = true) ∧
    (∃ m, runPre { v := 0, type := "pre version" } true () meepModels =
        .error ("_preprocess_meep", m) ∧ containsStr m "version" = true) ∧
    (∃ m, runPre { v := 0, type := "bad event" } true () meepModels =
        .error ("_preprocess_meep", m) ∧ containsStr m "Yeah, no." = true) := by
  refine ⟨⟨"preprocessor removed the type of the event", rfl, by decide⟩,
    ⟨"preprocessor changed the version of the event", rfl, by decide⟩,
    ⟨"Yeah, no.", rfl, by decide⟩⟩

/-- An accepted preprocessor pass never changes the event's version: a
changed `v` is rejected with a `_preprocess_` error. -/
theorem runPre_v {σ ρ : Type} (isMain : Bool) (st : σ) :
    ∀ (models : List (Model σ ρ)) (e e' : EvView) (d : List String),
      runPre e isMain st models = .ok (e', d) → e'.v = e.v := by
  intro models
  induction models with
  | nil =>
    intro e e' d h
    simp only [runPre, Except.ok.injEq, Prod.mk.injEq] at h
    obtain ⟨rfl, -⟩ := h
    rfl
  | cons m rest ih =>
    intro e e' d h
    simp only [runPre] at h
    cases hp : m.preprocessor with
    | none =>
      simp only [hp] at h
      exact ih e e' d h
    | some p =>
      simp only [hp] at h
      cases hpe : p e isMain st with
      | ok d0 =>
        simp only [hpe] at h
        cases hr : runPre e isMain st rest with
        | error err => simp [hr] at h
        | ok pr =>
          obtain ⟨e2, d2⟩ := pr
          simp only [hr, Except.ok.injEq, Prod.mk.injEq] at h
          exact (congrArg EvView.v h.1).symm.trans (ih e e2 d2 hr)
      | replace e1 d0 =>
        simp only [hpe] at h
        by_cases ht : e1.type = ""
        · simp [if_pos ht] at h
        · rw [if_neg ht] at h
          by_cases hv : e1.v ≠ e.v
          · simp [if_pos hv] at h
          · rw [if_neg hv] at h
            push_neg at hv
            cases hr : runPre e1 isMain st rest with
            | error err => simp [hr] at h
            | ok pr =>
              obtain ⟨e2, d2⟩ := pr
              simp only [hr, Except.ok.injEq, Prod.mk.injEq] at h
              exact (congrArg EvView.v h.1).symm.trans
                ((ih e1 e2 d2 hr).trans hv)
      | err msg =>
        simp [hpe] at h

/-- A child fold starting from an error stays an error. -/
theorem foldl_childStep_error {σ ρ : Type}
    (recur : String → EState σ → Except (String × String) (PEvent ρ × EState σ))
    (e : String × String) :
    ∀ (ts : List String), ts.foldl (childStep recur) (.error e) = .error e := by
  intro ts
  induction ts with
  | nil => rfl
  | cons t rest ih => simpa [childStep] using ih

/-- If each child run preserves the version pointer, so does the whole
child fold. -/
theorem foldl_childStep_version {σ ρ : Type}
    (recur : String → EState σ → Except (String × String) (PEvent ρ × EState σ))
    (hrec : ∀ t s pe s', recur t s = .ok (pe, s') → s'.version = s.version) :
    ∀ (ts : List String) (kids0 : List (PEvent ρ)) (s0 : EState σ)
      (kids : List (PEvent ρ)) (st' : EState σ),
      ts.foldl (childStep recur) (.ok (kids0, s0)) = .ok (kids, st') →
      st'.version = s0.version := by
  intro ts
  induction ts with
  | nil =>
    intro kids0 s0 kids st' h
    simp only [List.foldl_nil, Except.ok.injEq, Prod.mk.injEq] at h
    rw [← h.2]
  | cons t rest ih =>
    intro kids0 s0 kids st' h
    simp only [List.foldl_cons] at h
    cases hr : recur t s0 with
    | error e =>
      rw [show childStep recur (.ok (kids0, s0)) t = .error e by
        simp [childStep, hr]] at h
      rw [foldl_childStep_error] at h
      exact Except.noConfusion h
    | ok pr =>
      obtain ⟨kid, s2⟩ := pr
      rw [show childStep recur (.ok (kids0, s0)) t = .ok (kids0 ++ [kid], s2) by
        simp [childStep, hr]] at h
      rw [ih (kids0 ++ [kid]) s2 kids st' h]
      exact hrec t s0 kid s2 hr

/-- Children never advance the version pointer: processing any event as a
non-main event leaves the engine version unchanged. -/
theorem processNode_child_version {σ ρ : Type} (models : List (Model σ ρ)) :
    ∀ (fuel : Nat) (path : List String) (ev : EvView) (st : EState σ)
      (pe : PEvent ρ) (st' : EState σ),
      processNode models fuel path ev false st = .ok (pe, st') →
      st'.version = st.version := by
  intro fuel
  induction fuel with
  | zero =>
    intro path ev st pe st' h
    exact Except.noConfusion h
  | succ f ih =>
    intro path ev st pe st' h
    simp only [processNode] at h
    split at h
    · exact Except.noConfusion h
    · rename_i ev1 preDisp hpre
      split at h
      · exact Except.noConfusion h
      · rename_i stores2 derDisp hder
        split at h
        · exact Except.noConfusion h
        · rename_i kids stFinal hfold
          simp only [Except.ok.injEq, Prod.mk.injEq] at h
          have h2 : stFinal = st' := h.2
          rw [← h2]
          have hv := foldl_childStep_version _
            (fun t s pe1 s' hh => ih (path ++ [t]) { v := ev1.v, type := t } s pe1 s' hh)
            _ _ _ _ _ hfold
          rw [hv]
          simp [applyEvent]

/-- Processing a root (main) event sets the version pointer to the event's
`v`, whatever the initial version was. -/
theorem processNode_root_version {σ ρ : Type} (models : List (Model σ ρ)) :
    ∀ (fuel : Nat) (path : List String) (ev : EvView) (st : EState σ)
      (pe : PEvent ρ) (st' : EState σ),
      processNode models fuel path ev true st = .ok (pe, st') →
      st'.version = ev.v := by
  intro fuel
  cases fuel with
  | zero =>
    intro path ev st pe st' h
    exact Except.noConfusion h
  | succ f =>
    intro path ev st pe st' h
    simp only [processNode] at h
    split at h
    · exact Except.noConfusion h
    · rename_i ev1 preDisp hpre
      split at h
      · exact Except.noConfusion h
      · rename_i stores2 derDisp hder
        split at h
        · exact Except.noConfusion h
        · rename_i kids stFinal hfold
          simp only [Except.ok.injEq, Prod.mk.injEq] at h
          have h2 : stFinal = st' := h.2
          rw [← h2]
          have hv := foldl_childStep_version _
            (fun t s pe1 s' hh =>
              processNode_child_version models f (path ++ [t])
                { v := ev1.v, type := t } s pe1 s' hh)
            _ _ _ _ _ hfold
          rw [hv]
          exact runPre_v true st.stores models ev ev1 preDisp hpre

/-- After handling a root event — successfully or not — the persisted
version equals the event's `v`. -/
theorem handleRoot_version {σ ρ : Type} (models : List (Model σ ρ))
    (row : QRow ρ) (st : EState σ) :
    (handleRoot models row st).state.version = row.v := by
  unfold handleRoot
  cases hp : processNode models MAX_DEPTH [row.type]
      { v := row.v, type := row.type } true st with
  | error e => rfl
  | ok pr =>
    obtain ⟨pe, st1⟩ := pr
    exact processNode_root_version models MAX_DEPTH [row.type]
      { v := row.v, type := row.type } st pe st1 hp

/-- C6: for every root event with version `n`, the persisted version after
processing equals `n`, whether the event was handled or failed; children
never advance the version (`applyEvent` with `isMainEvent = false` leaves it
unchanged, and only a main event sets it); and applying the test's event
`{v: 50, result: {count: …}}` as a main event leaves `getVersion()` at `50`
with the `count` row written. -/
theorem version_advances_with_root_event :
    (∀ (σ ρ : Type) (models : List (Model σ ρ))
        (res : List (String × Reduction ρ)) (v : Nat) (st : EState σ),
      (applyEvent models res v true st).version = v ∧
      (applyEvent models res v false st).version = st.version) ∧
    (∀ (σ ρ : Type) (models : List (Model σ ρ)) (row : QRow ρ) (st : EState σ),
      (handleRoot models row st).state.version = row.v) ∧
    (applyEvent countModels
      [("count", { set := [{ id := "count", total := 1, byType := [("foo", 1)] }] })]
      50 true { stores := [], version := 0 }).version = 50 ∧
    (applyEvent countModels
      [("count", { set := [{ id := "count", total := 1, byType := [("foo", 1)] }] })]
      50 true { stores := [], version := 0 }).stores =
      [{ id := "count", total := 1, byType := [("foo", 1)] }] := by
  exact ⟨fun _ _ _ _ _ _ => ⟨rfl, rfl⟩,
    fun _ _ models row st => handleRoot_version models row st, rfl, rfl⟩

end StratoDB
